import Mathlib

/-!
Shallow embedding of the Onion HTTP router (github.com/saeedalam/Onion).

The embedded code is the map-based router variant: `matchWithParams` (the
pattern matcher), the `App` structure with its route map, middleware list and
not-found handler, the `dispatch` request loop, and the fluent `RouteGroup`
builder.  Go strings are Lean `String`s; the string operations are defined on
the underlying character lists (Go `strings.Split`, `strings.HasPrefix`,
`strings.TrimPrefix` with the one-character arguments used by the source), and
bridge lemmas relate them to the corresponding Lean `String` library functions.
Go maps are modelled as association lists with at most one entry per key,
assignment overwriting the value at an existing key.  Go map iteration order is
unspecified, so every statement about the dispatch scan quantifies over an
enumeration (a list, up to permutation) of the route map.  Handlers and
middlewares (`HandlerFunc`) are opaque values of a type parameter `H`;
`dispatch` is modelled by the trace of (callable, Context) invocations it
performs, which captures which callables run, in which order, and with which
context.
-/

namespace Onion

/-- Model of Go `strings.Split(s, "/")`.  The separator is the single character
`'/'`, so Go's split-on-substring coincides with splitting the character list
at each `'/'`; `splitSlash_eq_split` below shows this definition equals
`s.split (fun c => c = '/')`. -/
def splitSlash (s : String) : List String :=
  (List.splitOnP (fun c => c = '/') s.data).map String.mk

/-- Model of Go `strings.HasPrefix(s, ":")`: the prefix is the single character
`':'`, so the test is whether the first character of `s` is `':'`. -/
def hasColonSigil (s : String) : Bool :=
  match s.data with
  | [] => false
  | c :: _ => c = ':'

/-- Model of Go `strings.TrimPrefix(s, ":")` under the guard that `s` starts
with `":"` (the only way the source calls it): drop the first character.
`stripSigil_eq_drop` below shows this equals `s.drop 1`. -/
def stripSigil (s : String) : String := String.mk (s.data.drop 1)

/-- Go map assignment `m[k] = v` on an association list holding at most one
entry per key: overwrite the value at an existing key, otherwise add the
key. -/
def mapInsert (ps : List (String × String)) (k v : String) : List (String × String) :=
  if ps.any (fun q => q.1 = k) then ps.map (fun q => if q.1 = k then (k, v) else q)
  else ps ++ [(k, v)]

/-- Go map read `m[k]`, as an `Option` (the caller decides about the zero
value). -/
def mapFind (ps : List (String × String)) (k : String) : Option String :=
  (ps.find? (fun q => q.1 = k)).map (fun q => q.2)

/-- The segment loop of `matchWithParams` (source lines 164-176): walk the
pattern segments and path segments in lockstep, accumulating the params map; a
segment starting with the `':'` sigil binds, a literal segment must be equal,
and a mismatch rejects.  Called with lists of equal length. -/
def matchSegs : List String → List String → List (String × String) →
    Option (List (String × String))
  | [], [], params => some params
  | pp :: pps, pa :: pas, params =>
    if hasColonSigil pp then matchSegs pps pas (mapInsert params (stripSigil pp) pa)
    else if pp = pa then matchSegs pps pas params
    else none
  | _, _, _ => none

/-- Model of `matchWithParams(pattern, path)`: split both on `"/"`, reject if
the segment counts differ, otherwise run the segment loop starting from the
empty params map. -/
def matchWithParams (pattern path : String) : Option (List (String × String)) :=
  let pParts := splitSlash pattern
  let pathParts := splitSlash path
  if pParts.length ≠ pathParts.length then none
  else matchSegs pParts pathParts []

/-- The parameter names occurring in a pattern, sigil stripped, in segment
order (a specification-side view of the pattern, used to state invariants). -/
def paramNames (pattern : String) : List String :=
  (splitSlash pattern).filterMap (fun s => if hasColonSigil s then some (stripSigil s) else none)

/-- The (name, value) pairs contributed by the parameter segments when the
segment lists are walked in lockstep. -/
def paramPairs (pps pas : List String) : List (String × String) :=
  (pps.zip pas).filterMap (fun q => if hasColonSigil q.1 then some (stripSigil q.1, q.2) else none)

/-- Model of the `Context` struct: the response writer and request handle are
kept abstract except for the request method and path, which the dispatcher
reads; `params` is the path-parameter map (`[]` models Go's nil map). -/
structure Context where
  method : String
  path : String
  params : List (String × String)
deriving DecidableEq

/-- Model of `Context.Param`: Go's `c.params[key]` map read returns the zero
value `""` when the key is missing or the map is nil. -/
def Context.Param (c : Context) (key : String) : String :=
  match mapFind c.params key with
  | some v => v
  | none => ""

/-- Model of the `routeKey` struct: the (method, pattern) key of the route
map. -/
structure routeKey where
  method : String
  pattern : String
deriving DecidableEq

/-- Model of the `Route` struct, with the handler an opaque value of `H`. -/
structure Route (H : Type) where
  Method : String
  Pattern : String
  Handler : H
deriving DecidableEq

/-- Model of the `App` struct.  `routes` models the Go map
`map[routeKey]HandlerFunc` as an association list with at most one entry per
key, in insertion order; since Go map iteration order is unspecified, theorems
about the dispatch scan quantify over permutations of this list.  The
`http.ServeMux` field is not modelled: `Run` registers the single catch-all
`"/"` route that forwards every request to `dispatch`. -/
structure App (H : Type) where
  middlewares : List H
  notFound : H
  routes : List (routeKey × H)

section AppOps

variable {H : Type}

/-- Go map assignment for the route map, as in `mapInsert`. -/
def insertRoute (rs : List (routeKey × H)) (k : routeKey) (h : H) : List (routeKey × H) :=
  if rs.any (fun e => e.1 = k) then rs.map (fun e => if e.1 = k then (k, h) else e)
  else rs ++ [(k, h)]

/-- Go map read for the route map. -/
def findRouteKey (rs : List (routeKey × H)) (k : routeKey) : Option H :=
  (rs.find? (fun e => e.1 = k)).map (fun e => e.2)

/-- Model of `App.handle`: `a.routes[routeKey{method, pattern}] = handler`. -/
def App.handle (a : App H) (method pattern : String) (handler : H) : App H :=
  ⟨a.middlewares, a.notFound, insertRoute a.routes ⟨method, pattern⟩ handler⟩

/-- Model of `App.Use`: append a middleware to the global chain. -/
def App.Use (a : App H) (mw : H) : App H :=
  ⟨a.middlewares ++ [mw], a.notFound, a.routes⟩

/-- Model of `App.NotFoundHandler`: replace the not-found handler. -/
def App.NotFoundHandler (a : App H) (fn : H) : App H :=
  ⟨a.middlewares, fn, a.routes⟩

/-- Model of `App.UseRoutes`: register every route of every group via
`handle`. -/
def App.UseRoutes (a : App H) (routeGroups : List (List (Route H))) : App H :=
  routeGroups.foldl
    (fun acc group => group.foldl (fun acc2 r => acc2.handle r.Method r.Pattern r.Handler) acc) a

/-- The route lookup performed by the `dispatch` loop (source lines 125-145),
on a given enumeration `rs` of the route map: the first entry in scan order
whose method equals the request method and whose pattern matches the path is
returned with its bindings. -/
def findRoute (m p : String) : List (routeKey × H) → Option (H × List (String × String))
  | [] => none
  | (key, handler) :: rest =>
    if key.method = m then
      match matchWithParams key.pattern p with
      | some params => some (handler, params)
      | none => findRoute m p rest
    else findRoute m p rest

/-- Trace semantics of the `dispatch` loop on a given enumeration `rs` of the
route map: on the first entry that matches, one `Context` is built carrying the
bindings, every middleware is invoked on it in order, then the handler; if the
scan falls through, the not-found handler is invoked on a `Context` with nil
params (`&Context{Response: w, Request: r}`). -/
def dispatchScan (mws : List H) (nf : H) (m p : String) :
    List (routeKey × H) → List (H × Context)
  | [] => [(nf, ⟨m, p, []⟩)]
  | (key, handler) :: rest =>
    if key.method = m then
      match matchWithParams key.pattern p with
      | some params =>
        mws.map (fun mw => (mw, (⟨m, p, params⟩ : Context))) ++ [(handler, ⟨m, p, params⟩)]
      | none => dispatchScan mws nf m p rest
    else dispatchScan mws nf m p rest

/-- Model of `App.dispatch` at the insertion-order enumeration of the route
map (theorems that depend on the scan order quantify over permutations of
`a.routes` via `dispatchScan`). -/
def App.dispatch (a : App H) (m p : String) : List (H × Context) :=
  dispatchScan a.middlewares a.notFound m p a.routes

end AppOps

/-- An HTTP response, observed as a status code and a body (the concrete
handler semantics used to state what the default not-found handler writes). -/
structure HttpResponse where
  status : Nat
  body : String
deriving DecidableEq

/-- Modelled from the spec: the default not-found handler installed by `New`
delegates to `net/http.NotFound`, which is Go standard library code outside
this repository; the spec fixes its observable behavior to HTTP status 404
with a fixed plain-text body. -/
def defaultNotFound : Context → HttpResponse :=
  fun _ => ⟨404, "404 page not found"⟩

/-- Model of `New`: empty middleware chain, the default not-found handler, and
an empty route map.  The handler type is instantiated with the concrete
response semantics so that the default not-found handler's output is
observable. -/
def New : App (Context → HttpResponse) :=
  ⟨[], defaultNotFound, []⟩

/-- Model of the `RouteGroup` struct (fluent group builder).  The source field
`prefix` is renamed `prefixStr` (`prefix` is a Lean keyword). -/
structure RouteGroup (H : Type) where
  prefixStr : String
  routes : List (Route H)
deriving DecidableEq

/-- Model of `NewGroup(prefix)`. -/
def NewGroup (H : Type) (p : String) : RouteGroup H :=
  ⟨p, []⟩

section GroupOps

variable {H : Type}

/-- Model of `RouteGroup.GET`: append a Route with method `http.MethodGet`
(the string `"GET"`) and pattern `"/" + rg.prefix + pattern` (plain string
concatenation, no normalization). -/
def RouteGroup.GET (rg : RouteGroup H) (pattern : String) (handler : H) : RouteGroup H :=
  ⟨rg.prefixStr, rg.routes ++ [⟨"GET", "/" ++ rg.prefixStr ++ pattern, handler⟩]⟩

/-- Model of `RouteGroup.POST` (`http.MethodPost` is `"POST"`). -/
def RouteGroup.POST (rg : RouteGroup H) (pattern : String) (handler : H) : RouteGroup H :=
  ⟨rg.prefixStr, rg.routes ++ [⟨"POST", "/" ++ rg.prefixStr ++ pattern, handler⟩]⟩

/-- Model of `RouteGroup.PUT` (`http.MethodPut` is `"PUT"`). -/
def RouteGroup.PUT (rg : RouteGroup H) (pattern : String) (handler : H) : RouteGroup H :=
  ⟨rg.prefixStr, rg.routes ++ [⟨"PUT", "/" ++ rg.prefixStr ++ pattern, handler⟩]⟩

/-- Model of `RouteGroup.DELETE` (`http.MethodDelete` is `"DELETE"`). -/
def RouteGroup.DELETE (rg : RouteGroup H) (pattern : String) (handler : H) : RouteGroup H :=
  ⟨rg.prefixStr, rg.routes ++ [⟨"DELETE", "/" ++ rg.prefixStr ++ pattern, handler⟩]⟩

/-- Model of `RouteGroup.Routes`: the accumulated route list. -/
def RouteGroup.Routes (rg : RouteGroup H) : List (Route H) :=
  rg.routes

end GroupOps

/-! Helper lemmas about the pattern matcher. -/

/-- The segment loop succeeds exactly when, position by position, the pattern
segment is a parameter segment or equals the path segment. -/
theorem matchSegs_isSome_iff :
    ∀ (pps pas : List String) (acc : List (String × String)),
      (matchSegs pps pas acc).isSome = true ↔
        List.Forall₂ (fun pp pa => hasColonSigil pp = true ∨ pp = pa) pps pas
  | [], [], acc => by simp [matchSegs]
  | [], _ :: _, acc => by simp [matchSegs]
  | _ :: _, [], acc => by simp [matchSegs]
  | pp :: pps, pa :: pas, acc => by
    by_cases h : hasColonSigil pp = true
    · simp [matchSegs, h, matchSegs_isSome_iff pps pas (mapInsert acc (stripSigil pp) pa),
        List.forall₂_cons]
    · by_cases h2 : pp = pa
      · subst h2
        simp [matchSegs, h, matchSegs_isSome_iff pps pas acc, List.forall₂_cons]
      · simp [matchSegs, h, h2, List.forall₂_cons]

/-- Unfolding equation for `paramPairs` on a segment pair. -/
theorem paramPairs_cons (pp pa : String) (pps pas : List String) :
    paramPairs (pp :: pps) (pa :: pas) =
      if hasColonSigil pp then (stripSigil pp, pa) :: paramPairs pps pas
      else paramPairs pps pas := by
  by_cases hs : hasColonSigil pp = true <;> simp [paramPairs, List.filterMap_cons, hs]

/-- The params map produced by the segment loop is the fold of Go map
assignments over the (name, value) pairs of the parameter segments. -/
theorem matchSegs_eq_foldl :
    ∀ (pps pas : List String) (acc out : List (String × String)),
      matchSegs pps pas acc = some out →
      out = (paramPairs pps pas).foldl (fun ps q => mapInsert ps q.1 q.2) acc
  | [], [], acc, out, h => by
    simp [matchSegs] at h
    simp [paramPairs, h]
  | [], _ :: _, acc, out, h => by simp [matchSegs] at h
  | _ :: _, [], acc, out, h => by simp [matchSegs] at h
  | pp :: pps, pa :: pas, acc, out, h => by
    rw [paramPairs_cons]
    by_cases hs : hasColonSigil pp = true
    · simp only [matchSegs, hs, if_true] at h
      have := matchSegs_eq_foldl pps pas (mapInsert acc (stripSigil pp) pa) out h
      simpa [hs] using this
    · by_cases h2 : pp = pa
      · subst h2
        simp [matchSegs, hs] at h
        have := matchSegs_eq_foldl pps pas acc out h
        simpa [hs] using this
      · simp [matchSegs, hs, h2] at h

/-- Go map assignment at a fresh key appends the entry. -/
theorem mapInsert_of_not_mem (ps : List (String × String)) (k v : String)
    (h : k ∉ ps.map Prod.fst) : mapInsert ps k v = ps ++ [(k, v)] := by
  have hany : ps.any (fun q => q.1 = k) = false := by
    rw [List.any_eq_false]
    intro q hq
    simp only [decide_eq_true_eq]
    intro hqk
    exact h (List.mem_map.mpr ⟨q, hq, hqk⟩)
  simp [mapInsert, hany]

/-- The key set after a Go map assignment is the old key set plus the assigned
key. -/
theorem mem_keys_mapInsert (ps : List (String × String)) (k v k' : String) :
    k' ∈ (mapInsert ps k v).map Prod.fst ↔ k' ∈ ps.map Prod.fst ∨ k' = k := by
  by_cases h : ps.any (fun q => q.1 = k) = true
  · have hk : k ∈ ps.map Prod.fst := by
      rcases List.any_eq_true.mp h with ⟨q, hq, hqk⟩
      simp only [decide_eq_true_eq] at hqk
      exact List.mem_map.mpr ⟨q, hq, hqk⟩
    have hkeys : (ps.map (fun q => if q.1 = k then (k, v) else q)).map Prod.fst
        = ps.map Prod.fst := by
      rw [List.map_map]
      apply List.map_congr_left
      intro q _
      by_cases hq : q.1 = k <;> simp [hq]
    simp only [mapInsert, if_pos h, hkeys]
    constructor
    · exact Or.inl
    · rintro (h' | rfl)
      · exact h'
      · exact hk
  · rw [mapInsert, if_neg h]
    simp

/-- The key set after folding Go map assignments is the old key set plus the
assigned keys. -/
theorem mem_keys_foldl_mapInsert :
    ∀ (qs ps : List (String × String)) (k : String),
      k ∈ ((qs.foldl (fun a q => mapInsert a q.1 q.2) ps).map Prod.fst) ↔
        k ∈ ps.map Prod.fst ∨ k ∈ qs.map Prod.fst
  | [], ps, k => by simp
  | q :: qs, ps, k => by
    simp only [List.foldl_cons, mem_keys_foldl_mapInsert qs (mapInsert ps q.1 q.2) k,
      mem_keys_mapInsert, List.map_cons, List.mem_cons]
    tauto

/-- Folding Go map assignments whose keys are pairwise distinct and all fresh
just appends the entries. -/
theorem foldl_mapInsert_fresh :
    ∀ (qs ps : List (String × String)),
      (qs.map Prod.fst).Nodup → (∀ k ∈ qs.map Prod.fst, k ∉ ps.map Prod.fst) →
      qs.foldl (fun a q => mapInsert a q.1 q.2) ps = ps ++ qs
  | [], ps, _, _ => by simp
  | q :: qs, ps, hnd, hfresh => by
    have h1 : q.1 ∉ ps.map Prod.fst := hfresh q.1 (by simp)
    have hnd' : (qs.map Prod.fst).Nodup := by
      simp only [List.map_cons, List.nodup_cons] at hnd
      exact hnd.2
    have hhead : q.1 ∉ qs.map Prod.fst := by
      simp only [List.map_cons, List.nodup_cons] at hnd
      exact hnd.1
    rw [List.foldl_cons, mapInsert_of_not_mem ps q.1 q.2 h1,
      foldl_mapInsert_fresh qs (ps ++ [(q.1, q.2)]) hnd' ?fresh]
    · simp
    case fresh =>
      intro k hk
      simp only [List.map_append, List.mem_append, List.map_cons, List.mem_singleton]
      rintro (hmem | hmem)
      · exact hfresh k (by simp [hk]) hmem
      · simp only [List.map_nil, List.mem_cons, List.not_mem_nil, or_false] at hmem
        exact hhead (hmem ▸ hk)

/-- Reading a Go map with pairwise distinct keys at a key it holds returns the
held value. -/
theorem mapFind_of_nodup_mem :
    ∀ (l : List (String × String)) (k v : String),
      (l.map Prod.fst).Nodup → (k, v) ∈ l → mapFind l k = some v
  | [], _, _, _, h => by cases h
  | q :: l, k, v, hnd, hmem => by
    rcases List.mem_cons.mp hmem with heq | hmem'
    · rw [← heq]
      simp [mapFind]
    · have hknd : k ∈ l.map Prod.fst := List.mem_map.mpr ⟨(k, v), hmem', rfl⟩
      have hne : ¬(q.1 = k) := by
        simp only [List.map_cons, List.nodup_cons] at hnd
        intro hq
        exact hnd.1 (hq ▸ hknd)
      have hnd' : (l.map Prod.fst).Nodup := by
        simp only [List.map_cons, List.nodup_cons] at hnd
        exact hnd.2
      have hstep : (q :: l).find? (fun e => e.1 = k) = l.find? (fun e => e.1 = k) :=
        List.find?_cons_of_neg _ (by simp [hne])
      rw [mapFind, hstep]
      exact mapFind_of_nodup_mem l k v hnd' hmem'

/-- With equal segment counts, the keys of the parameter pairs are exactly the
parameter names of the pattern segments, in order. -/
theorem keys_paramPairs :
    ∀ (pps pas : List String), pps.length = pas.length →
      (paramPairs pps pas).map Prod.fst =
        pps.filterMap (fun s => if hasColonSigil s then some (stripSigil s) else none)
  | [], [], _ => rfl
  | [], _ :: _, h => by simp at h
  | _ :: _, [], h => by simp at h
  | pp :: pps, pa :: pas, h => by
    have h' : pps.length = pas.length := by simpa using h
    rw [paramPairs_cons]
    by_cases hs : hasColonSigil pp = true <;>
      simp [hs, List.filterMap_cons, keys_paramPairs pps pas h']

/-- Every parameter segment contributes its (name, value) pair to the
parameter pairs. -/
theorem paramPairs_mem :
    ∀ (pps pas : List String) (i : Nat) (hi : i < pps.length) (hj : i < pas.length),
      hasColonSigil (pps.get ⟨i, hi⟩) = true →
      (stripSigil (pps.get ⟨i, hi⟩), pas.get ⟨i, hj⟩) ∈ paramPairs pps pas
  | [], _, i, hi, _, _ => absurd hi (Nat.not_lt_zero i)
  | _ :: _, [], i, _, hj, _ => absurd hj (Nat.not_lt_zero i)
  | pp :: pps, pa :: pas, 0, _, _, h => by
    rw [paramPairs_cons, if_pos (show hasColonSigil pp = true from h)]
    exact List.mem_cons_self _ _
  | pp :: pps, pa :: pas, Nat.succ i, hi, hj, h => by
    have hrec := paramPairs_mem pps pas i (Nat.lt_of_succ_lt_succ hi)
      (Nat.lt_of_succ_lt_succ hj) h
    rw [paramPairs_cons]
    by_cases hs : hasColonSigil pp = true
    · rw [if_pos hs]
      exact List.mem_cons_of_mem _ hrec
    · rw [if_neg hs]
      exact hrec

/-! Helper lemmas about the route scan and the route map. -/

section ScanLemmas

variable {H : Type}

/-- The scan falls through exactly when no route with the request method has a
matching pattern. -/
theorem findRoute_eq_none_iff (m p : String) :
    ∀ (rs : List (routeKey × H)),
      findRoute m p rs = none ↔
        ∀ e ∈ rs, e.1.method = m → matchWithParams e.1.pattern p = none
  | [] => by simp [findRoute]
  | (key, handler) :: rest => by
    by_cases hm : key.method = m
    · cases hmt : matchWithParams key.pattern p with
      | some params => simp [findRoute, hm, hmt]
      | none => simp [findRoute, hm, hmt, findRoute_eq_none_iff m p rest]
    · simp [findRoute, hm, findRoute_eq_none_iff m p rest]

/-- A successful scan returns an entry of the table whose method equals the
request method and whose pattern matches, with the matcher's bindings. -/
theorem findRoute_eq_some :
    ∀ (rs : List (routeKey × H)) (m p : String) (h : H) (ps : List (String × String)),
      findRoute m p rs = some (h, ps) →
      ∃ k, (k, h) ∈ rs ∧ k.method = m ∧ matchWithParams k.pattern p = some ps
  | [], m, p, h, ps, heq => by simp [findRoute] at heq
  | (key, handler) :: rest, m, p, h, ps, hsome => by
    by_cases hm : key.method = m
    · cases hmt : matchWithParams key.pattern p with
      | some params =>
        simp only [findRoute, hm, hmt, if_true, if_pos] at hsome
        rcases Option.some.inj hsome with heq
        exact ⟨key, by simp [(Prod.mk.injEq _ _ _ _).mp heq], hm, by
          rw [hmt, ((Prod.mk.injEq _ _ _ _).mp heq).2]⟩
      | none =>
        have hrest : findRoute m p rest = some (h, ps) := by
          simpa [findRoute, hm, hmt] using hsome
        rcases findRoute_eq_some rest m p h ps hrest with ⟨k, hk, hkm, hkp⟩
        exact ⟨k, List.mem_cons_of_mem _ hk, hkm, hkp⟩
    · have hrest : findRoute m p rest = some (h, ps) := by
        simpa [findRoute, hm] using hsome
      rcases findRoute_eq_some rest m p h ps hrest with ⟨k, hk, hkm, hkp⟩
      exact ⟨k, List.mem_cons_of_mem _ hk, hkm, hkp⟩

/-- The scan is the first-match search: it agrees with `List.find?` on the
predicate "method equals and pattern matches", paired with the bindings. -/
theorem findRoute_eq_find? (m p : String) :
    ∀ (rs : List (routeKey × H)),
      findRoute m p rs =
        (rs.find? (fun e => decide (e.1.method = m) && (matchWithParams e.1.pattern p).isSome)).bind
          (fun e => (matchWithParams e.1.pattern p).map (fun ps => (e.2, ps)))
  | [] => by simp [findRoute]
  | (key, handler) :: rest => by
    by_cases hm : key.method = m
    · cases hmt : matchWithParams key.pattern p with
      | some params => simp [findRoute, hm, hmt, List.find?_cons]
      | none => simp [findRoute, hm, hmt, List.find?_cons, findRoute_eq_find? m p rest]
    · simp [findRoute, hm, List.find?_cons, findRoute_eq_find? m p rest]

/-- When at most one element satisfies the predicate, `List.find?` does not
depend on the order of the list. -/
theorem find?_perm_of_unique {α : Type} (pred : α → Bool) (l l' : List α)
    (hperm : l.Perm l')
    (huniq : ∀ a ∈ l, ∀ b ∈ l, pred a = true → pred b = true → a = b) :
    l.find? pred = l'.find? pred := by
  cases h : l.find? pred with
  | none =>
    have hnone : ∀ x ∈ l, ¬pred x = true := by
      intro x hx
      exact List.find?_eq_none.mp h x hx
    symm
    rw [List.find?_eq_none]
    intro x hx
    exact hnone x (hperm.mem_iff.mpr hx)
  | some a =>
    have ha : pred a = true := List.find?_some h
    have hmem : a ∈ l := List.mem_of_find?_eq_some h
    cases h' : l'.find? pred with
    | none => exact absurd ha (List.find?_eq_none.mp h' a (hperm.mem_iff.mp hmem))
    | some b =>
      have hb : pred b = true := List.find?_some h'
      have hbmem : b ∈ l := hperm.mem_iff.mpr (List.mem_of_find?_eq_some h')
      rw [huniq a hmem b hbmem ha hb]

/-- The dispatch trace is determined by the scan result: on a match, the
middleware chain then the handler, all on one context carrying the bindings;
otherwise the not-found handler on a context with nil params. -/
theorem dispatchScan_eq_findRoute (mws : List H) (nf : H) (m p : String) :
    ∀ (rs : List (routeKey × H)),
      dispatchScan mws nf m p rs =
        match findRoute m p rs with
        | some (h, ps) =>
          mws.map (fun mw => (mw, (⟨m, p, ps⟩ : Context))) ++ [(h, ⟨m, p, ps⟩)]
        | none => [(nf, ⟨m, p, []⟩)]
  | [] => by simp [dispatchScan, findRoute]
  | (key, handler) :: rest => by
    by_cases hm : key.method = m
    · cases hmt : matchWithParams key.pattern p with
      | some params => simp [dispatchScan, findRoute, hm, hmt]
      | none =>
        simp [dispatchScan, findRoute, hm, hmt, dispatchScan_eq_findRoute mws nf m p rest]
    · simp [dispatchScan, findRoute, hm, dispatchScan_eq_findRoute mws nf m p rest]

/-- Go map assignment at a table whose head has the assigned key. -/
theorem insertRoute_head_eq (e : routeKey × H) (rest : List (routeKey × H)) (k : routeKey)
    (h : H) (he : e.1 = k) :
    insertRoute (e :: rest) k h =
      (k, h) :: rest.map (fun e2 => if e2.1 = k then (k, h) else e2) := by
  have hany : (e :: rest).any (fun e2 => e2.1 = k) = true := by
    simp [List.any_cons, he]
  simp [insertRoute, hany, he]

/-- Go map assignment at a table whose head has a different key steps over the
head. -/
theorem insertRoute_head_ne (e : routeKey × H) (rest : List (routeKey × H)) (k : routeKey)
    (h : H) (he : ¬(e.1 = k)) :
    insertRoute (e :: rest) k h = e :: insertRoute rest k h := by
  by_cases hany : rest.any (fun e2 => e2.1 = k) = true
  · have hall : (e :: rest).any (fun e2 => e2.1 = k) = true := by
      simp [List.any_cons, hany]
    simp [insertRoute, hall, hany, he]
  · have hall : ¬((e :: rest).any (fun e2 => e2.1 = k) = true) := by
      simp only [List.any_cons, Bool.or_eq_true, decide_eq_true_eq]
      rintro (h1 | h2)
      · exact he h1
      · exact hany h2
    simp [insertRoute, hall, hany, he]

/-- Reading the route map at a key just assigned returns the assigned handler
(last registration wins). -/
theorem findRouteKey_insertRoute_self :
    ∀ (rs : List (routeKey × H)) (k : routeKey) (h : H),
      findRouteKey (insertRoute rs k h) k = some h
  | [], k, h => by simp [insertRoute, findRouteKey]
  | e :: rest, k, h => by
    by_cases he : e.1 = k
    · rw [insertRoute_head_eq e rest k h he]
      simp [findRouteKey]
    · rw [insertRoute_head_ne e rest k h he]
      have hstep : ((e :: insertRoute rest k h).find? (fun e2 => e2.1 = k)) =
          ((insertRoute rest k h).find? (fun e2 => e2.1 = k)) :=
        List.find?_cons_of_neg _ (by simp [he])
      rw [findRouteKey, hstep]
      exact findRouteKey_insertRoute_self rest k h

/-- The key set after a route map assignment is the old key set plus the
assigned key. -/
theorem keys_insertRoute (rs : List (routeKey × H)) (k : routeKey) (h : H) :
    (insertRoute rs k h).map Prod.fst =
      if k ∈ rs.map Prod.fst then rs.map Prod.fst else rs.map Prod.fst ++ [k] := by
  by_cases hany : rs.any (fun e => e.1 = k) = true
  · have hk : k ∈ rs.map Prod.fst := by
      rcases List.any_eq_true.mp hany with ⟨e, he, hek⟩
      simp only [decide_eq_true_eq] at hek
      exact List.mem_map.mpr ⟨e, he, hek⟩
    have hkeys : (rs.map (fun e => if e.1 = k then (k, h) else e)).map Prod.fst
        = rs.map Prod.fst := by
      rw [List.map_map]
      apply List.map_congr_left
      intro e _
      by_cases hek : e.1 = k <;> simp [hek]
    simp [insertRoute, hany, hkeys, hk]
  · have hk : k ∉ rs.map Prod.fst := by
      intro hmem
      rcases List.mem_map.mp hmem with ⟨e, he, hek⟩
      exact hany (List.any_eq_true.mpr ⟨e, he, by simp [hek]⟩)
    simp [insertRoute, hany, hk]

/-- Route map assignment preserves pairwise-distinct keys. -/
theorem nodup_keys_insertRoute (rs : List (routeKey × H)) (k : routeKey) (h : H)
    (hnd : (rs.map Prod.fst).Nodup) : ((insertRoute rs k h).map Prod.fst).Nodup := by
  rw [keys_insertRoute]
  by_cases hk : k ∈ rs.map Prod.fst
  · simpa [hk] using hnd
  · simp only [hk, if_neg, not_false_iff, if_false]
    simp [List.nodup_append, hnd, hk]

/-- The assigned key is present after a route map assignment. -/
theorem mem_keys_insertRoute_self (rs : List (routeKey × H)) (k : routeKey) (h : H) :
    k ∈ (insertRoute rs k h).map Prod.fst := by
  rw [keys_insertRoute]
  by_cases hk : k ∈ rs.map Prod.fst <;> simp [hk]

/-- In a table with pairwise-distinct keys, the number of entries at a key is
one when the key is present and zero otherwise. -/
theorem length_filter_key_nodup :
    ∀ (rs : List (routeKey × H)), (rs.map Prod.fst).Nodup → ∀ k : routeKey,
      (rs.filter (fun e => e.1 = k)).length = if k ∈ rs.map Prod.fst then 1 else 0
  | [], _, k => by simp
  | e :: rest, hnd, k => by
    have hnd' : (rest.map Prod.fst).Nodup := by
      simp only [List.map_cons, List.nodup_cons] at hnd
      exact hnd.2
    have hhead : e.1 ∉ rest.map Prod.fst := by
      simp only [List.map_cons, List.nodup_cons] at hnd
      exact hnd.1
    by_cases he : e.1 = k
    · have hkr : k ∉ rest.map Prod.fst := he ▸ hhead
      have hrest := length_filter_key_nodup rest hnd' k
      rw [if_neg hkr] at hrest
      simp [List.filter_cons, he, hrest]
    · have hrest := length_filter_key_nodup rest hnd' k
      have hne : ¬(k = e.1) := fun hk => he hk.symm
      by_cases hk : k ∈ rest.map Prod.fst <;>
        simp [List.filter_cons, he, hrest, hk, List.mem_cons, hne]

end ScanLemmas

/-- Sanity bridge: `splitSlash` is Lean's `String.split` at the `'/'`
predicate. -/
theorem splitSlash_eq_split (s : String) : splitSlash s = s.split (fun c => c = '/') :=
  (String.split_of_valid s _).symm

/-- Sanity bridge: `stripSigil` is `String.drop 1`. -/
theorem stripSigil_eq_drop (s : String) : stripSigil s = s.drop 1 := by
  apply String.ext
  simp [stripSigil]

/-- Appending one separator at the end of a list appends one empty chunk to its
split. -/
theorem splitOnP_append_sep {α : Type} (p : α → Bool) (c : α) (hc : p c = true) :
    ∀ (l : List α), List.splitOnP p (l ++ [c]) = List.splitOnP p l ++ [[]]
  | [] => by simp [List.splitOnP_cons, hc, List.splitOnP_nil]
  | x :: l => by
    rw [List.cons_append, List.splitOnP_cons, List.splitOnP_cons]
    by_cases hx : p x = true
    · simp [hx, splitOnP_append_sep p c hc l]
    · simp only [hx, Bool.false_eq_true, if_false]
      rw [splitOnP_append_sep p c hc l]
      cases hsp : List.splitOnP p l with
      | nil => exact absurd hsp (List.splitOnP_ne_nil _ l)
      | cons a as => simp

/-- A trailing slash adds exactly one (empty) segment. -/
theorem length_splitSlash_append_slash (s : String) :
    (splitSlash (s ++ "/")).length = (splitSlash s).length + 1 := by
  have hdata : (s ++ "/").data = s.data ++ ['/'] := by cases s; rfl
  rw [splitSlash, splitSlash, hdata, splitOnP_append_sep _ '/' (by decide) s.data]
  simp

/-- Differing segment counts are rejected by the guard of `matchWithParams`. -/
theorem matchWithParams_of_length_ne (pattern path : String)
    (h : (splitSlash pattern).length ≠ (splitSlash path).length) :
    matchWithParams pattern path = none := by
  simp [matchWithParams, h]

/-- C4: for every pattern and path that split on `/` into differing numbers of
segments, `matchWithParams` rejects; in particular a path with a trailing slash
has one more segment than the same path without it, and therefore the two never
match each other in either role. -/
theorem matchWithParams_length_mismatch_spec :
    (∀ pattern path : String,
        (splitSlash pattern).length ≠ (splitSlash path).length →
        matchWithParams pattern path = none) ∧
    (∀ path : String,
        (splitSlash (path ++ "/")).length = (splitSlash path).length + 1 ∧
        matchWithParams path (path ++ "/") = none ∧
        matchWithParams (path ++ "/") path = none) := by
  refine ⟨matchWithParams_of_length_ne, fun path => ⟨length_splitSlash_append_slash path, ?_, ?_⟩⟩
  · apply matchWithParams_of_length_ne
    rw [length_splitSlash_append_slash path]
    omega
  · apply matchWithParams_of_length_ne
    rw [length_splitSlash_append_slash path]
    omega

/-- Witness for C4 at concrete inputs. -/
theorem matchWithParams_length_mismatch_spec_witness :
    matchWithParams "/hello" "/hello/extra" = none ∧
    matchWithParams "/hello" "/hello/" = none :=
  ⟨matchWithParams_length_mismatch_spec.1 "/hello" "/hello/extra" (by decide),
   (matchWithParams_length_mismatch_spec.2 "/hello").2.1⟩

/-- C10: `Context.Param` is total: it returns the bound value when the key is
present in the params map, and the empty string when the key is unbound or the
Context carries no bindings at all (as the Context handed to the not-found
handler does). -/
theorem context_Param_total_spec :
    ∀ (c : Context) (key : String),
      (∀ v, mapFind c.params key = some v → c.Param key = v) ∧
      (mapFind c.params key = none → c.Param key = "") ∧
      (∀ m p : String, Context.Param ⟨m, p, []⟩ key = "") := by
  intro c key
  refine ⟨fun v hv => ?_, fun hv => ?_, fun m p => ?_⟩
  · simp [Context.Param, hv]
  · simp [Context.Param, hv]
  · simp [Context.Param, mapFind]

/-- Witness for C10 at concrete inputs. -/
theorem context_Param_total_spec_witness :
    Context.Param ⟨"GET", "/books/7", [("id", "7")]⟩ "id" = "7" ∧
    Context.Param ⟨"GET", "/books/7", [("id", "7")]⟩ "nope" = "" ∧
    Context.Param ⟨"GET", "/missing", []⟩ "id" = "" :=
  ⟨(context_Param_total_spec ⟨"GET", "/books/7", [("id", "7")]⟩ "id").1 "7" (by decide),
   (context_Param_total_spec ⟨"GET", "/books/7", [("id", "7")]⟩ "nope").2.1 (by decide),
   (context_Param_total_spec ⟨"GET", "/missing", []⟩ "id").2.2 "GET" "/missing"⟩

/-- C9: the prefix-group builder joins prefix and sub-pattern by plain string
concatenation with no normalization (so double slashes are kept); in
particular `NewGroup("books").GET("/:id", h)` yields the single Route
(GET, "/books/:id", h), and matching that pattern against "/books/42" binds
id to "42". -/
theorem routeGroup_GET_pattern_spec :
    (∀ (H : Type) (h : H) (pfx sub : String),
        ((NewGroup H pfx).GET sub h).Routes = [⟨"GET", "/" ++ pfx ++ sub, h⟩]) ∧
    (∀ (H : Type) (h : H),
        ((NewGroup H "books").GET "/:id" h).Routes = [⟨"GET", "/books/:id", h⟩]) ∧
    matchWithParams "/books/:id" "/books/42" = some [("id", "42")] ∧
    (∀ (H : Type) (h : H),
        ((NewGroup H "books/").GET "/x" h).Routes = [⟨"GET", "/books//x", h⟩]) :=
  ⟨fun H h pfx sub => rfl, fun H h => rfl, by decide, fun H h => rfl⟩

/-- C8: the bindings of every successful match have exactly the pattern's
parameter names (sigil stripped) as keys: every parameter name is a key and no
key comes from anywhere else. -/
theorem match_bindings_keys_spec :
    ∀ (pattern path : String) (ps : List (String × String)),
      matchWithParams pattern path = some ps →
      ∀ k : String, k ∈ ps.map Prod.fst ↔ k ∈ paramNames pattern := by
  intro pattern path ps h k
  have hlen : (splitSlash pattern).length = (splitSlash path).length := by
    by_contra hne
    rw [matchWithParams_of_length_ne pattern path hne] at h
    cases h
  have hsegs : matchSegs (splitSlash pattern) (splitSlash path) [] = some ps := by
    simpa [matchWithParams, hlen] using h
  have hfold := matchSegs_eq_foldl _ _ _ _ hsegs
  rw [hfold, mem_keys_foldl_mapInsert]
  simp only [List.map_nil, List.not_mem_nil, false_or]
  rw [show (paramPairs (splitSlash pattern) (splitSlash path)).map Prod.fst
      = paramNames pattern from keys_paramPairs _ _ hlen]

/-- Witness for C8 at concrete inputs. -/
theorem match_bindings_keys_spec_witness :
    ("id" ∈ ([("id", "42")] : List (String × String)).map Prod.fst ↔
      "id" ∈ paramNames "/books/:id") ∧
    ("other" ∈ ([("id", "42")] : List (String × String)).map Prod.fst ↔
      "other" ∈ paramNames "/books/:id") :=
  ⟨match_bindings_keys_spec "/books/:id" "/books/42" [("id", "42")] (by decide) "id",
   match_bindings_keys_spec "/books/:id" "/books/42" [("id", "42")] (by decide) "other"⟩

/-- C1 counterexample: with a repeated parameter name the earlier parameter
segment does not keep its own corresponding path segment: the pattern
"/:x/:x" with equal segment count against "/a/b" matches, segment 1 is the
parameter segment ":x" whose corresponding path segment is "a", yet the
produced bindings hold "b" for the key "x" (the later Go map assignment
overwrote the earlier one). -/
theorem match_param_binding_counterexample :
    (splitSlash "/:x/:x").length = (splitSlash "/a/b").length ∧
    hasColonSigil ((splitSlash "/:x/:x").get ⟨1, by decide⟩) = true ∧
    (splitSlash "/a/b").get ⟨1, by decide⟩ = "a" ∧
    matchWithParams "/:x/:x" "/a/b" = some [("x", "b")] ∧
    mapFind [("x", "b")] (stripSigil ((splitSlash "/:x/:x").get ⟨1, by decide⟩)) ≠
      some ((splitSlash "/a/b").get ⟨1, by decide⟩) := by
  decide

/-- C1 (amended): for equal segment counts, the match succeeds iff every
literal (non-sigil) pattern segment equals the corresponding path segment;
and, provided the pattern's parameter names are pairwise distinct, every
parameter segment binds its name to the corresponding path segment regardless
of its value (a repeated name instead keeps only its last occurrence, by the
counterexample). -/
theorem matchWithParams_equal_counts_spec (pattern path : String)
    (hlen : (splitSlash pattern).length = (splitSlash path).length) :
    ((matchWithParams pattern path).isSome = true ↔
      ∀ (i : Nat) (hi : i < (splitSlash pattern).length) (hj : i < (splitSlash path).length),
        ¬(hasColonSigil ((splitSlash pattern).get ⟨i, hi⟩) = true) →
        (splitSlash pattern).get ⟨i, hi⟩ = (splitSlash path).get ⟨i, hj⟩) ∧
    ((paramNames pattern).Nodup →
      ∀ ps, matchWithParams pattern path = some ps →
      ∀ (i : Nat) (hi : i < (splitSlash pattern).length) (hj : i < (splitSlash path).length),
        hasColonSigil ((splitSlash pattern).get ⟨i, hi⟩) = true →
        mapFind ps (stripSigil ((splitSlash pattern).get ⟨i, hi⟩)) =
          some ((splitSlash path).get ⟨i, hj⟩)) := by
  constructor
  · rw [show matchWithParams pattern path
        = matchSegs (splitSlash pattern) (splitSlash path) [] by simp [matchWithParams, hlen]]
    rw [matchSegs_isSome_iff, List.forall₂_iff_get]
    constructor
    · intro h i hi hj hlit
      rcases h.2 i hi hj with hsig | heq
      · exact absurd hsig hlit
      · exact heq
    · intro h
      refine ⟨hlen, fun i hi hj => ?_⟩
      by_cases hsig : hasColonSigil ((splitSlash pattern).get ⟨i, hi⟩) = true
      · exact Or.inl hsig
      · exact Or.inr (h i hi hj hsig)
  · intro hnd ps hps i hi hj hsig
    have hsegs : matchSegs (splitSlash pattern) (splitSlash path) [] = some ps := by
      simpa [matchWithParams, hlen] using hps
    have hkeys : (paramPairs (splitSlash pattern) (splitSlash path)).map Prod.fst
        = paramNames pattern := keys_paramPairs _ _ hlen
    have hndp : ((paramPairs (splitSlash pattern) (splitSlash path)).map Prod.fst).Nodup := by
      rw [hkeys]; exact hnd
    have hfold := matchSegs_eq_foldl _ _ _ _ hsegs
    have hfresh : ∀ k2 ∈ (paramPairs (splitSlash pattern) (splitSlash path)).map Prod.fst,
        k2 ∉ (([] : List (String × String)).map Prod.fst) := by
      intro k2 _
      simp
    rw [hfold, foldl_mapInsert_fresh _ _ hndp hfresh, List.nil_append]
    exact mapFind_of_nodup_mem _ _ _ hndp
      (paramPairs_mem (splitSlash pattern) (splitSlash path) i hi hj hsig)

/-- Witness for the amended C1 at concrete inputs. -/
theorem matchWithParams_equal_counts_spec_witness :
    mapFind [("id", "42")] "id" = some "42" := by
  have h := matchWithParams_equal_counts_spec "/books/:id" "/books/42" (by decide)
  exact h.2 (by decide) [("id", "42")] (by decide) 2 (by decide) (by decide) (by decide)

/-- C2 counterexample: the dispatch scan iterates a Go map, whose enumeration
order is unspecified; two enumerations of the same route table (they are
permutations of one another) give different lookup results for the same
(method, path) when two routes can match it, so lookup is not determined by
the table alone. -/
theorem lookup_scan_order_counterexample :
    ([((⟨"GET", "/books/:id"⟩ : routeKey), 2), (⟨"GET", "/books/new"⟩, 1)].Perm
      [((⟨"GET", "/books/new"⟩ : routeKey), 1), (⟨"GET", "/books/:id"⟩, 2)]) ∧
    findRoute "GET" "/books/new"
        [((⟨"GET", "/books/new"⟩ : routeKey), 1), (⟨"GET", "/books/:id"⟩, 2)] ≠
      findRoute "GET" "/books/new"
        [((⟨"GET", "/books/:id"⟩ : routeKey), 2), (⟨"GET", "/books/new"⟩, 1)] :=
  ⟨List.Perm.swap _ _ _, by decide⟩

/-- C2 (amended): on any one enumeration of the route table the lookup returns
the handler and bindings of the first route in that scan order whose method
equals the request method and whose pattern matches the path; and whenever at
most one registered route can match the request, the lookup result is the same
for every enumeration of the table (in general the result may depend on the
enumeration, by the counterexample). -/
theorem lookup_first_match_spec {H : Type} (m p : String) (rs rs' : List (routeKey × H)) :
    (findRoute m p rs =
      (rs.find? (fun e => decide (e.1.method = m) && (matchWithParams e.1.pattern p).isSome)).bind
        (fun e => (matchWithParams e.1.pattern p).map (fun ps => (e.2, ps)))) ∧
    (rs.Perm rs' →
      (∀ e₁ ∈ rs, ∀ e₂ ∈ rs,
        (e₁.1.method = m ∧ (matchWithParams e₁.1.pattern p).isSome = true) →
        (e₂.1.method = m ∧ (matchWithParams e₂.1.pattern p).isSome = true) → e₁ = e₂) →
      findRoute m p rs = findRoute m p rs') := by
  refine ⟨findRoute_eq_find? m p rs, fun hperm huniq => ?_⟩
  rw [findRoute_eq_find? m p rs, findRoute_eq_find? m p rs']
  rw [find?_perm_of_unique _ rs rs' hperm ?_]
  intro a ha b hb hpa hpb
  simp only [Bool.and_eq_true, decide_eq_true_eq] at hpa hpb
  exact huniq a ha b hb hpa hpb

/-- Witness for the amended C2 at concrete inputs. -/
theorem lookup_first_match_spec_witness :
    findRoute "GET" "/a"
        [((⟨"GET", "/a"⟩ : routeKey), 1), (⟨"GET", "/b"⟩, 2)] =
      findRoute "GET" "/a"
        [((⟨"GET", "/b"⟩ : routeKey), 2), (⟨"GET", "/a"⟩, 1)] :=
  (lookup_first_match_spec "GET" "/a"
      [((⟨"GET", "/a"⟩ : routeKey), 1), (⟨"GET", "/b"⟩, 2)]
      [((⟨"GET", "/b"⟩ : routeKey), 2), (⟨"GET", "/a"⟩, 1)]).2
    (List.Perm.swap _ _ _) (by decide)

/-- C3: when the scan finds a route, the dispatch trace is exactly the whole
middleware chain in registration order followed by the matched handler, every
call receiving the same Context (the one carrying the match's bindings): no
middleware is skipped, none runs after the handler, and nothing short-circuits
the handler. -/
theorem middleware_chain_spec {H : Type} (mws : List H) (nf : H) (m p : String)
    (rs : List (routeKey × H)) (h : H) (ps : List (String × String))
    (hfind : findRoute m p rs = some (h, ps)) :
    dispatchScan mws nf m p rs =
      mws.map (fun mw => (mw, (⟨m, p, ps⟩ : Context))) ++ [(h, ⟨m, p, ps⟩)] := by
  rw [dispatchScan_eq_findRoute, hfind]

/-- Witness for C3 at concrete inputs. -/
theorem middleware_chain_spec_witness :
    dispatchScan [1, 2] 0 "GET" "/hello" [((⟨"GET", "/hello"⟩ : routeKey), 5)] =
      [(1, (⟨"GET", "/hello", []⟩ : Context)), (2, ⟨"GET", "/hello", []⟩),
        (5, ⟨"GET", "/hello", []⟩)] := by
  have h := middleware_chain_spec [1, 2] 0 "GET" "/hello"
    [((⟨"GET", "/hello"⟩ : routeKey), 5)] 5 [] (by decide)
  simpa using h

/-- C6: a request whose path is matched by some registered pattern but whose
method equals no such route's method resolves exactly as a no-route-match: the
scan falls through and the dispatch trace is the single invocation of the
configured not-found handler, identical to the trace on an empty table (no
distinct 405 outcome exists). -/
theorem method_mismatch_notfound_spec {H : Type} (mws : List H) (nf : H) (m p : String)
    (rs : List (routeKey × H))
    (_hpattern : ∃ e ∈ rs, (matchWithParams e.1.pattern p).isSome = true)
    (hmethod : ∀ e ∈ rs, (matchWithParams e.1.pattern p).isSome = true → ¬(e.1.method = m)) :
    dispatchScan mws nf m p rs = [(nf, ⟨m, p, []⟩)] ∧
    dispatchScan mws nf m p rs = dispatchScan mws nf m p ([] : List (routeKey × H)) := by
  have hnone : findRoute m p rs = none := by
    rw [findRoute_eq_none_iff]
    intro e he hem
    cases hmt : matchWithParams e.1.pattern p with
    | none => rfl
    | some ps2 => exact absurd hem (hmethod e he (by simp [hmt]))
  constructor
  · rw [dispatchScan_eq_findRoute, hnone]
  · rw [dispatchScan_eq_findRoute, hnone]
    rfl

/-- Witness for C6 at concrete inputs. -/
theorem method_mismatch_notfound_spec_witness :
    dispatchScan [9] 0 "GET" "/hello" [((⟨"POST", "/hello"⟩ : routeKey), 7)] =
      [(0, (⟨"GET", "/hello", []⟩ : Context))] := by
  have h := method_mismatch_notfound_spec [9] 0 "GET" "/hello"
    [((⟨"POST", "/hello"⟩ : routeKey), 7)]
    ⟨((⟨"POST", "/hello"⟩ : routeKey), 7), by decide, by decide⟩ (by decide)
  exact h.1

/-- C7: when no route matches, the dispatcher invokes the configured not-found
handler on a Context with empty bindings; the default not-found handler
installed by `New` (never overridden) produces status 404 with the fixed
plain-text body, and `NotFoundHandler` replaces it so that the last override
wins. -/
theorem notfound_default_spec :
    (∀ (H : Type) (mws : List H) (nf : H) (m p : String) (rs : List (routeKey × H)),
        findRoute m p rs = none → dispatchScan mws nf m p rs = [(nf, ⟨m, p, []⟩)]) ∧
    (∀ c : Context, New.notFound c = ⟨404, "404 page not found"⟩) ∧
    (∀ (H : Type) (a : App H) (f g : H),
        ((a.NotFoundHandler f).NotFoundHandler g).notFound = g) := by
  refine ⟨?_, fun c => rfl, fun H a f g => rfl⟩
  intro H mws nf m p rs hnone
  rw [dispatchScan_eq_findRoute, hnone]

/-- Witness for C7 at concrete inputs. -/
theorem notfound_default_spec_witness :
    dispatchScan [] defaultNotFound "GET" "/missing"
        ([] : List (routeKey × (Context → HttpResponse))) =
      [(defaultNotFound, ⟨"GET", "/missing", []⟩)] :=
  notfound_default_spec.1 (Context → HttpResponse) [] defaultNotFound "GET" "/missing" [] rfl

/-- C5: registering the same (method, pattern) key twice with different
handlers leaves the route map holding the last-registered handler at that key
(overwrite policy), and — given the Go-map invariant that keys were pairwise
distinct beforehand — the table afterwards has pairwise distinct keys and
exactly one entry for that key. -/
theorem duplicate_registration_spec {H : Type} (a : App H) (m pat : String) (h1 h2 : H) :
    findRouteKey ((a.handle m pat h1).handle m pat h2).routes ⟨m, pat⟩ = some h2 ∧
    ((a.routes.map Prod.fst).Nodup →
      (((a.handle m pat h1).handle m pat h2).routes.map Prod.fst).Nodup ∧
      (((a.handle m pat h1).handle m pat h2).routes.filter
          (fun e => e.1 = (⟨m, pat⟩ : routeKey))).length = 1) := by
  refine ⟨findRouteKey_insertRoute_self _ _ _, fun hnd => ⟨?_, ?_⟩⟩
  · exact nodup_keys_insertRoute _ _ _ (nodup_keys_insertRoute _ _ _ hnd)
  · have hky := length_filter_key_nodup
      (insertRoute (insertRoute a.routes ⟨m, pat⟩ h1) ⟨m, pat⟩ h2)
      (nodup_keys_insertRoute _ _ _ (nodup_keys_insertRoute _ _ _ hnd)) ⟨m, pat⟩
    rw [if_pos (mem_keys_insertRoute_self _ _ _)] at hky
    exact hky

/-- Witness for C5 at concrete inputs. -/
theorem duplicate_registration_spec_witness :
    findRouteKey (((⟨[], 0, []⟩ : App Nat).handle "GET" "/x" 1).handle "GET" "/x" 2).routes
        ⟨"GET", "/x"⟩ = some 2 ∧
    ((((⟨[], 0, []⟩ : App Nat).handle "GET" "/x" 1).handle "GET" "/x" 2).routes.filter
        (fun e => e.1 = (⟨"GET", "/x"⟩ : routeKey))).length = 1 := by
  have h := duplicate_registration_spec (⟨[], 0, []⟩ : App Nat) "GET" "/x" 1 2
  exact ⟨h.1, (h.2 (by decide)).2⟩

end Onion
